import Mathlib

/-!
Verification development for the repository file cataloguing subsystem
(token_talkers.repo_expert): a shallow embedding of
`file_index.py` (hard/soft file stores and `populate_index`) and
`repo_index.py` (node containment store), followed by theorems about the
embedded operations.

Strings are modelled as `List Char`, file bytes as `List Nat`.
The SQLite backend is modelled per connection as a pair of row lists:
`committed` rows plus `pending` rows of the currently open transaction
(the Python code uses one connection/cursor per store instance; a query
on that cursor sees committed and pending rows alike; `commit` publishes
the pending rows; an exception leaves the transaction open, it is never
rolled back).
-/

/-- ASCII lower-casing, the folding SQLite applies in its default
(case-insensitive for ASCII) `LIKE` operator. -/
def asciiLower (c : Char) : Char :=
  if 65 ≤ c.toNat ∧ c.toNat ≤ 90 then Char.ofNat (c.toNat + 32) else c

/-- Character comparison used by SQLite `LIKE`: equal up to ASCII case. -/
def likeCharEq (p c : Char) : Bool :=
  asciiLower p == asciiLower c

/-- Fuel-indexed SQL `LIKE` matcher: pattern against string, with
`%` matching any run of characters and `_` exactly one character,
case-insensitively on ASCII. The fuel only serves structural recursion;
`sqlLike` below supplies enough of it. -/
def sqlLikeF : Nat → List Char → List Char → Bool
  | 0, _, _ => false
  | fuel + 1, ps, s =>
    match ps with
    | [] => s.isEmpty
    | p :: pr =>
      if p = '%' then
        sqlLikeF fuel pr s ||
          (match s with
           | [] => false
           | _ :: cs => sqlLikeF fuel (p :: pr) cs)
      else
        match s with
        | [] => false
        | c :: cs =>
          if p = '_' then sqlLikeF fuel pr cs
          else likeCharEq p c && sqlLikeF fuel pr cs

/-- SQL `LIKE` pattern matching: `sqlLike pat s` is `pat LIKE`-matches `s`. -/
def sqlLike (ps s : List Char) : Bool :=
  sqlLikeF (ps.length + s.length + 1) ps s

/-- One table of one SQLite connection: committed rows plus the pending
rows of the open transaction, in insertion order. -/
structure TableState (ρ : Type) where
  committed : List ρ
  pending : List ρ
deriving DecidableEq

/-- What queries on the owning connection see: committed plus pending rows. -/
def TableState.view (t : TableState ρ) : List ρ :=
  t.committed ++ t.pending

/-- `conn.commit()`: publish the pending rows. -/
def TableState.commit (t : TableState ρ) : TableState ρ :=
  ⟨t.view, []⟩

/-- A freshly created (or dropped and recreated) table. -/
def TableState.empty : TableState ρ :=
  ⟨[], []⟩

/-- `HardFileRecord` of `file_index.py`: canonical metadata of one
physical file, keyed by resolved path. -/
structure HardFileRecord where
  path : List Char
  size : Nat
  is_binary : Bool
  number_of_lines : Nat
  processed : Bool
deriving DecidableEq

/-- `SoftFileRecord` of `file_index.py`: one walked path mapped to its
canonical hard path. -/
structure SoftFileRecord where
  path : List Char
  hard_path : List Char
deriving DecidableEq

/-- The two tables owned by one `SQLiteFileIndex` connection. -/
structure FileIndexState where
  hard : TableState HardFileRecord
  soft : TableState SoftFileRecord
deriving DecidableEq

/-- A `SQLiteFileIndex` on a fresh database. -/
def FileIndexState.empty : FileIndexState :=
  ⟨TableState.empty, TableState.empty⟩

/-- `SQLiteFileIndex.initialize_schema`: with `drop_existing` the two
tables are dropped (losing committed and pending rows alike) and
recreated; otherwise `CREATE TABLE IF NOT EXISTS` touches no data. The
method ends with `commit()`. -/
def initialize_schema (st : FileIndexState) (drop_existing : Bool) : FileIndexState :=
  if drop_existing then FileIndexState.empty
  else ⟨st.hard.commit, st.soft.commit⟩

/-- `SQLiteFileIndex.wipe_data`: `DELETE` every row of both tables, then
`commit()`. -/
def wipe_data (_st : FileIndexState) : FileIndexState :=
  ⟨TableState.empty, TableState.empty⟩

/-- Insertion loop of `SQLiteFileIndex.insert_hard_records`: each
`INSERT` checks the `path` primary key against the rows visible in the
transaction and raises on a duplicate; the Python method catches the
exception and returns `False` without commit or rollback, leaving the
rows executed so far pending. On success it commits and returns `True`.
(Storage-layer failures other than the uniqueness constraint are not
modelled.) -/
def insertHardGo : TableState HardFileRecord → List HardFileRecord →
    TableState HardFileRecord × Bool
  | t, [] => (t.commit, true)
  | t, r :: rs =>
    if t.view.any (fun x => x.path == r.path) then (t, false)
    else insertHardGo ⟨t.committed, t.pending ++ [r]⟩ rs

/-- `SQLiteFileIndex.insert_hard_records`. -/
def insert_hard_records (st : FileIndexState) (records : List HardFileRecord) :
    Bool × FileIndexState :=
  let r := insertHardGo st.hard records
  (r.2, ⟨r.1, st.soft⟩)

/-- Insertion loop of `SQLiteFileIndex.insert_soft_records`, keyed on the
soft `path` primary key; same transactional behaviour as the hard loop. -/
def insertSoftGo : TableState SoftFileRecord → List SoftFileRecord →
    TableState SoftFileRecord × Bool
  | t, [] => (t.commit, true)
  | t, r :: rs =>
    if t.view.any (fun x => x.path == r.path) then (t, false)
    else insertSoftGo ⟨t.committed, t.pending ++ [r]⟩ rs

/-- `SQLiteFileIndex.insert_soft_records`. -/
def insert_soft_records (st : FileIndexState) (records : List SoftFileRecord) :
    Bool × FileIndexState :=
  let r := insertSoftGo st.soft records
  (r.2, ⟨st.hard, r.1⟩)

/-- `SQLiteFileIndex.query_hard_records`: `SELECT * FROM hard_files WHERE
path LIKE ?`, in insertion order, on the connection's view. -/
def query_hard_records (st : FileIndexState) (fuzzy_path : List Char) :
    List HardFileRecord :=
  st.hard.view.filter (fun r => sqlLike fuzzy_path r.path)

/-- `SQLiteFileIndex.query_soft_records`. -/
def query_soft_records (st : FileIndexState) (fuzzy_path : List Char) :
    List SoftFileRecord :=
  st.soft.view.filter (fun r => sqlLike fuzzy_path r.path)

/-- `NodeRecord` of `repo_index.py`. -/
structure NodeRecord where
  hard_file_path : List Char
  name : List Char
  type : List Char
  container : Option (List Char)
deriving DecidableEq

/-- A row of the `nodes` table (five columns; `insert_node_records`
always stores the record's own `hard_file_path` in
`container_hard_file_path`). -/
structure NodeRow where
  hard_file_path : List Char
  name : List Char
  type : List Char
  container_hard_file_path : List Char
  container_name : Option (List Char)
deriving DecidableEq

/-- The row written for a `NodeRecord` by `insert_node_records`. -/
def nodeRowOf (r : NodeRecord) : NodeRow :=
  ⟨r.hard_file_path, r.name, r.type, r.hard_file_path, r.container⟩

/-- Errors surfaced by the node store (`sqlite3.IntegrityError`, raised
both by the explicit container pre-check and by the primary-key
constraint). -/
inductive DbError where
  | integrityError
deriving DecidableEq

deriving instance DecidableEq for Except

/-- `SQLiteNodeIndex.query_node_records`: `SELECT hard_file_path, name,
type, container_name FROM nodes WHERE hard_file_path LIKE ? and name
LIKE ?`, mapped back to `NodeRecord`s. -/
def query_node_records (t : TableState NodeRow) (fuzzy_name : List Char)
    (fuzzy_path : List Char) : List NodeRecord :=
  (t.view.filter
      (fun row => sqlLike fuzzy_path row.hard_file_path && sqlLike fuzzy_name row.name)).map
    (fun row => ⟨row.hard_file_path, row.name, row.type, row.container_name⟩)

/-- `SQLiteNodeIndex._is_valid_container_reference`: a record with no
container is valid; otherwise some row must be returned by
`query_node_records(record.container, record.hard_file_path)` — note
both strings are used as `LIKE` patterns. -/
def is_valid_container_reference (t : TableState NodeRow) (r : NodeRecord) : Bool :=
  match r.container with
  | none => true
  | some c => !(query_node_records t c r.hard_file_path).isEmpty

/-- Insertion loop of `SQLiteNodeIndex.insert_node_records`: per record,
the container pre-check raises an integrity error, then the `INSERT`
raises on a duplicate `(hard_file_path, name)` primary key; neither
raise commits or rolls back, so rows executed earlier in the batch stay
pending. On success the accumulated `cursor.rowcount` total is
returned. -/
def insertNodeGo : TableState NodeRow → List NodeRecord →
    TableState NodeRow × Except DbError Nat
  | t, [] => (t, Except.ok 0)
  | t, r :: rs =>
    if !(is_valid_container_reference t r) then (t, Except.error DbError.integrityError)
    else if t.view.any
        (fun row => row.hard_file_path == r.hard_file_path && row.name == r.name) then
      (t, Except.error DbError.integrityError)
    else
      match insertNodeGo ⟨t.committed, t.pending ++ [nodeRowOf r]⟩ rs with
      | (t2, Except.ok n) => (t2, Except.ok (n + 1))
      | (t2, Except.error e) => (t2, Except.error e)

/-- `SQLiteNodeIndex.insert_node_records`: runs the loop, commits on
success and returns whether every insert affected one row; a raised
integrity error propagates with nothing committed by this call. -/
def insert_node_records (t : TableState NodeRow) (records : List NodeRecord) :
    TableState NodeRow × Except DbError Bool :=
  match insertNodeGo t records with
  | (t2, Except.ok n) => (t2.commit, Except.ok (decide (n = records.length)))
  | (t2, Except.error e) => (t2, Except.error e)

/-- One state of the incremental UTF-8 decoder: how many continuation
bytes are still expected, the code-point bits collected so far, and the
admissible range of the next continuation byte (tight after E0/ED/F0/F4
leads, per the strict UTF-8 used by Python). -/
structure U8S where
  need : Nat
  acc : Nat
  lo : Nat
  hi : Nat
deriving DecidableEq

/-- Classify a byte as a lead byte: an ASCII byte decodes immediately,
a multi-byte lead opens a sequence, anything else is invalid and (under
the `ignore` error handler) dropped. -/
def u8Lead (b : Nat) : Option Nat × U8S :=
  if b < 128 then (some b, ⟨0, 0, 0, 0⟩)
  else if 194 ≤ b ∧ b ≤ 223 then (none, ⟨1, b - 192, 128, 191⟩)
  else if b = 224 then (none, ⟨2, b - 224, 160, 191⟩)
  else if b = 237 then (none, ⟨2, b - 224, 128, 159⟩)
  else if 224 ≤ b ∧ b ≤ 239 then (none, ⟨2, b - 224, 128, 191⟩)
  else if b = 240 then (none, ⟨3, b - 240, 144, 191⟩)
  else if b = 244 then (none, ⟨3, b - 240, 128, 143⟩)
  else if 240 ≤ b ∧ b ≤ 244 then (none, ⟨3, b - 240, 128, 191⟩)
  else (none, ⟨0, 0, 0, 0⟩)

/-- UTF-8 decoding with Python's `ignore` error handler: malformed
sequences are dropped (the offending byte is re-examined as a lead byte)
and decoding continues; an incomplete sequence at the end of input is
dropped. Returns the decoded code points. -/
def u8Go : List Nat → U8S → List Nat
  | [], _ => []
  | b :: rest, st =>
    if st.need = 0 then
      match u8Lead b with
      | (some c, st2) => c :: u8Go rest st2
      | (none, st2) => u8Go rest st2
    else if st.lo ≤ b ∧ b ≤ st.hi then
      if st.need = 1 then (st.acc * 64 + (b - 128)) :: u8Go rest ⟨0, 0, 0, 0⟩
      else u8Go rest ⟨st.need - 1, st.acc * 64 + (b - 128), 128, 191⟩
    else
      match u8Lead b with
      | (some c, st2) => c :: u8Go rest st2
      | (none, st2) => u8Go rest st2

/-- Decode a byte string the way `open(path, "r", encoding="utf-8",
errors="ignore")` does. -/
def utf8DecodeIgnore (bs : List Nat) : List Nat :=
  u8Go bs ⟨0, 0, 0, 0⟩

/-- Strict UTF-8 validity (what `bytes.decode("utf-8")` with the default
strict handler accepts); `false` means a strict decode raises
`UnicodeDecodeError` somewhere in the stream. -/
def u8Valid : List Nat → U8S → Bool
  | [], st => decide (st.need = 0)
  | b :: rest, st =>
    if st.need = 0 then
      match u8Lead b with
      | (some _, st2) => u8Valid rest st2
      | (none, st2) => if st2.need = 0 then false else u8Valid rest st2
    else if st.lo ≤ b ∧ b ≤ st.hi then
      if st.need = 1 then u8Valid rest ⟨0, 0, 0, 0⟩
      else u8Valid rest ⟨st.need - 1, st.acc * 64 + (b - 128), 128, 191⟩
    else false

/-- Whether a byte string decodes as strict UTF-8 without error. -/
def utf8ValidStrict (bs : List Nat) : Bool :=
  u8Valid bs ⟨0, 0, 0, 0⟩

/-- Universal-newline translation performed by Python text mode:
`\r\n` and lone `\r` both become `\n` (code points 13 and 10). -/
def univNewlines : List Nat → List Nat
  | [] => []
  | 13 :: 10 :: rest => 10 :: univNewlines rest
  | 13 :: rest => 10 :: univNewlines rest
  | c :: rest => c :: univNewlines rest

/-- Number of lines `for _ in f` yields on the decoded text: one per
newline plus a final unterminated line when trailing characters remain. -/
def pythonLineCount (bs : List Nat) : Nat :=
  let cs := univNewlines (utf8DecodeIgnore bs)
  cs.count 10 +
    (match cs.getLast? with
     | some c => if c = 10 then 0 else 1
     | none => 0)

/-- The NUL-byte probe of `populate_index`: `b"\0" in f.read(1024)`. -/
def isBinaryProbe (content : List Nat) : Bool :=
  (content.take 1024).contains 0

/-- One regular-file path yielded by the flattened
`os.walk(input_dir, followlinks=True)` traversal.
`absPath` is `str(os.path.abspath(file_path))`, `resolvedPath` is
`str(file_path.resolve())` (symlinks followed), `content` the file's
bytes. `readOk = false` means the metadata `try` block (the two `open`
calls and the reads) raises an I/O error, which the code catches;
`statOk = false` means the separate `file_path.stat()` call raises,
which the code does not catch. -/
structure WalkFile where
  absPath : List Char
  resolvedPath : List Char
  content : List Nat
  readOk : Bool
  statOk : Bool
  size : Nat
deriving DecidableEq

/-- The root directory handed to `populate_index`: whether
`input_dir.is_dir()` holds, and the walked files in traversal order. -/
structure InputDir where
  isDir : Bool
  files : List WalkFile
deriving DecidableEq

/-- The errors `populate_index` raises: the two `ValueError`s and an
uncaught per-file `stat` failure. -/
inductive PopError where
  | existingData
  | invalidDir
  | statError
deriving DecidableEq

/-- The metadata `try` block of `populate_index`, returning
`(is_binary, number_of_lines, processed)`: probe the first 1024 bytes
for NUL; if text, count lines streaming with `errors="ignore"`. The
source's `except UnicodeDecodeError` reclassification branch is
unreachable, because the `ignore` handler never raises that error. On a
caught I/O failure the initial values `(False, 0, False)` survive. -/
def fileMetadata (f : WalkFile) : Bool × Nat × Bool :=
  if f.readOk then
    let isBin := isBinaryProbe f.content
    (isBin, if isBin then 0 else pythonLineCount f.content, true)
  else (false, 0, false)

/-- The `HardFileRecord` built for a first-seen canonical path: metadata
from the `try` block, `size` from `file_path.stat().st_size`. -/
def hardRecordOf (f : WalkFile) : HardFileRecord :=
  ⟨f.resolvedPath, f.size, (fileMetadata f).1, (fileMetadata f).2.1, (fileMetadata f).2.2⟩

/-- The `SoftFileRecord` inserted for every walked path. -/
def softRecordOf (f : WalkFile) : SoftFileRecord :=
  ⟨f.absPath, f.resolvedPath⟩

/-- The per-file body of `populate_index`'s walk: look the resolved path
up (as a `LIKE` pattern!); on a miss compute metadata, `stat` (an
uncaught failure aborts the walk), and insert the hard record; in every
surviving case insert the soft record and continue. Insert return
values are ignored, as in the source. -/
def populateLoop (st : FileIndexState) : List WalkFile → FileIndexState × Option PopError
  | [] => (st, none)
  | f :: fs =>
    if (query_hard_records st f.resolvedPath).isEmpty then
      if f.statOk then
        let st1 := (insert_hard_records st [hardRecordOf f]).2
        let st2 := (insert_soft_records st1 [softRecordOf f]).2
        populateLoop st2 fs
      else (st, some PopError.statError)
    else
      let st2 := (insert_soft_records st [softRecordOf f]).2
      populateLoop st2 fs

/-- `populate_index(index, input_dir, wipe)`: with `wipe` the schema is
dropped and recreated and the data wiped; otherwise any existing hard
or soft row raises the existing-data error. Only then is `input_dir`
validated, after which the walk runs. Returns the final store state
together with the raised error, if any. -/
def populate_index (st0 : FileIndexState) (input_dir : InputDir) (wipe : Bool) :
    FileIndexState × Option PopError :=
  if wipe then
    let st1 := wipe_data (initialize_schema st0 true)
    if !input_dir.isDir then (st1, some PopError.invalidDir)
    else populateLoop st1 input_dir.files
  else if !(query_hard_records st0 ['%']).isEmpty
      || !(query_soft_records st0 ['%']).isEmpty then
    (st0, some PopError.existingData)
  else if !input_dir.isDir then (st0, some PopError.invalidDir)
  else populateLoop st0 input_dir.files

/-- The logical foreign key of the spec: every soft record's `hard_path`
names some stored hard record. -/
def softFKBool (st : FileIndexState) : Bool :=
  st.soft.view.all (fun s => st.hard.view.any (fun h => h.path == s.hard_path))

/-- A pattern with no `LIKE` wildcard characters. -/
def noWild (p : List Char) : Bool :=
  p.all (fun c => (c != '%') && (c != '_'))

/-- Case-insensitive prefix test on ASCII-folded characters. -/
def ciStarts : List Char → List Char → Bool
  | [], _ => true
  | _ :: _, [] => false
  | c :: cs, d :: ds => (asciiLower c == asciiLower d) && ciStarts cs ds

/-- Case-insensitive substring containment: `ciSub sub s` holds when
`sub` occurs contiguously in `s` up to ASCII case. -/
def ciSub (sub : List Char) : List Char → Bool
  | [] => sub.isEmpty
  | d :: ds => ciStarts sub (d :: ds) || ciSub sub ds


/-- Definitional step: the empty pattern. -/
theorem sqlLikeF_step_nil (f : Nat) (s : List Char) :
    sqlLikeF (f + 1) [] s = s.isEmpty := rfl

/-- Definitional step: a pattern head against the empty string. -/
theorem sqlLikeF_step_cons_nil (f : Nat) (p : Char) (pr : List Char) :
    sqlLikeF (f + 1) (p :: pr) [] = (if p = '%' then sqlLikeF f pr [] else false) := by
  have h : sqlLikeF (f + 1) (p :: pr) []
      = (if p = '%' then (sqlLikeF f pr [] || false) else false) := rfl
  rw [h]
  by_cases hp : p = '%' <;> simp [hp]

/-- Definitional step: a pattern head against a nonempty string. -/
theorem sqlLikeF_step_cons_cons (f : Nat) (p : Char) (pr : List Char) (c : Char)
    (cs : List Char) :
    sqlLikeF (f + 1) (p :: pr) (c :: cs)
      = (if p = '%' then (sqlLikeF f pr (c :: cs) || sqlLikeF f (p :: pr) cs)
         else if p = '_' then sqlLikeF f pr cs
         else likeCharEq p c && sqlLikeF f pr cs) := rfl

/-- Two sufficient fuels give the `LIKE` matcher the same answer. -/
theorem sqlLikeF_congr : ∀ (f1 f2 : Nat) (ps s : List Char),
    ps.length + s.length < f1 → ps.length + s.length < f2 →
    sqlLikeF f1 ps s = sqlLikeF f2 ps s := by
  intro f1
  induction f1 with
  | zero => intro f2 ps s h1 _; exact absurd h1 (Nat.not_lt_zero _)
  | succ f1 ih =>
    intro f2 ps s h1 h2
    cases f2 with
    | zero => exact absurd h2 (Nat.not_lt_zero _)
    | succ f2 =>
      cases ps with
      | nil => rfl
      | cons p pr =>
        simp only [List.length_cons] at h1 h2
        cases s with
        | nil =>
          rw [sqlLikeF_step_cons_nil, sqlLikeF_step_cons_nil]
          by_cases hp : p = '%'
          · rw [if_pos hp, if_pos hp,
              ih f2 pr [] (by first | omega | (simp only [List.length_cons, List.length_nil]; omega))
                (by first | omega | (simp only [List.length_cons, List.length_nil]; omega))]
          · rw [if_neg hp, if_neg hp]
        | cons c cs =>
          rw [sqlLikeF_step_cons_cons, sqlLikeF_step_cons_cons]
          simp only [List.length_cons] at h1 h2
          by_cases hp : p = '%'
          · rw [if_pos hp, if_pos hp,
              ih f2 pr (c :: cs) (by first | omega | (simp only [List.length_cons, List.length_nil]; omega))
                (by first | omega | (simp only [List.length_cons, List.length_nil]; omega)),
              ih f2 (p :: pr) cs (by first | omega | (simp only [List.length_cons, List.length_nil]; omega))
                (by first | omega | (simp only [List.length_cons, List.length_nil]; omega))]
          · rw [if_neg hp, if_neg hp]
            by_cases hu : p = '_'
            · rw [if_pos hu, if_pos hu, ih f2 pr cs (by first | omega | (simp only [List.length_cons, List.length_nil]; omega)) (by first | omega | (simp only [List.length_cons, List.length_nil]; omega))]
            · rw [if_neg hu, if_neg hu, ih f2 pr cs (by first | omega | (simp only [List.length_cons, List.length_nil]; omega)) (by first | omega | (simp only [List.length_cons, List.length_nil]; omega))]

/-- Any sufficient fuel computes `sqlLike`. -/
theorem sqlLike_eqF (f : Nat) (ps s : List Char) (h : ps.length + s.length < f) :
    sqlLikeF f ps s = sqlLike ps s :=
  sqlLikeF_congr f (ps.length + s.length + 1) ps s h (Nat.lt_succ_self _)

/-- The empty pattern matches exactly the empty string. -/
theorem sqlLike_nilP (s : List Char) : sqlLike [] s = s.isEmpty := rfl

/-- Unfolding equation: a leading `%` against the empty string. -/
theorem sqlLike_pct_nil (ps : List Char) : sqlLike ('%' :: ps) [] = sqlLike ps [] := by
  unfold sqlLike
  rw [sqlLikeF_step_cons_nil, if_pos rfl]
  exact sqlLikeF_congr _ _ ps [] (by first | omega | (simp only [List.length_cons, List.length_nil]; omega)) (by first | omega | (simp only [List.length_cons, List.length_nil]; omega))

/-- Unfolding equation: a leading `%` either matches here or after
dropping one character. -/
theorem sqlLike_pct_cons (ps : List Char) (c : Char) (cs : List Char) :
    sqlLike ('%' :: ps) (c :: cs) = (sqlLike ps (c :: cs) || sqlLike ('%' :: ps) cs) := by
  unfold sqlLike
  rw [sqlLikeF_step_cons_cons, if_pos rfl]
  congr 1
  exact sqlLikeF_congr _ _ ps (c :: cs)
    (by first | omega | (simp only [List.length_cons, List.length_nil]; omega))
    (by first | omega | (simp only [List.length_cons, List.length_nil]; omega))

/-- Unfolding equation: a non-`%` pattern head never matches the empty
string. -/
theorem sqlLike_cons_nil (p : Char) (ps : List Char) (hp : p ≠ '%') :
    sqlLike (p :: ps) [] = false := by
  unfold sqlLike
  rw [sqlLikeF_step_cons_nil, if_neg hp]

/-- Unfolding equation: a non-`%` pattern head consumes one character,
either as the `_` wildcard or by case-insensitive comparison. -/
theorem sqlLike_cons_cons (p : Char) (ps : List Char) (c : Char) (cs : List Char)
    (hp : p ≠ '%') :
    sqlLike (p :: ps) (c :: cs)
      = (if p = '_' then sqlLike ps cs else likeCharEq p c && sqlLike ps cs) := by
  unfold sqlLike
  rw [sqlLikeF_step_cons_cons, if_neg hp]
  by_cases hu : p = '_'
  · rw [if_pos hu, if_pos hu]
    exact sqlLikeF_congr _ _ ps cs
      (by first | omega | (simp only [List.length_cons, List.length_nil]; omega)) (by first | omega | (simp only [List.length_cons, List.length_nil]; omega))
  · rw [if_neg hu, if_neg hu]
    congr 1
    exact sqlLikeF_congr _ _ ps cs
      (by first | omega | (simp only [List.length_cons, List.length_nil]; omega)) (by first | omega | (simp only [List.length_cons, List.length_nil]; omega))

/-- Every string, read as a pattern, `LIKE`-matches itself. -/
theorem sqlLike_refl : ∀ p : List Char, sqlLike p p = true := by
  intro p
  induction p with
  | nil => rfl
  | cons c cs ih =>
    by_cases hc : c = '%'
    · subst hc
      rw [sqlLike_pct_cons]
      have h2 : sqlLike ('%' :: cs) cs = true := by
        cases cs with
        | nil => rfl
        | cons d ds =>
          rw [sqlLike_pct_cons, ih]
          rfl
      rw [h2, Bool.or_true]
    · rw [sqlLike_cons_cons c cs c cs hc]
      by_cases hu : c = '_'
      · simp [hu, ih]
      · simp [hu, ih, likeCharEq]

/-- Helper: boolean equality from coincidence of truth. -/
theorem bool_eq_of_true_iff (a b : Bool) (h : a = true ↔ b = true) : a = b := by
  cases a <;> cases b <;> simp_all

/-- Semantics of a leading `%`: it matches exactly when some suffix of
the string matches the remaining pattern. -/
theorem sqlLike_pct_iff (ps s : List Char) :
    sqlLike ('%' :: ps) s = true ↔ ∃ t u, s = t ++ u ∧ sqlLike ps u = true := by
  induction s with
  | nil =>
    rw [sqlLike_pct_nil]
    constructor
    · intro h; exact ⟨[], [], rfl, h⟩
    · rintro ⟨t, u, heq, hu⟩
      obtain ⟨rfl, rfl⟩ := List.append_eq_nil.mp heq.symm
      exact hu
  | cons c cs ih =>
    rw [sqlLike_pct_cons, Bool.or_eq_true]
    constructor
    · rintro (h | h)
      · exact ⟨[], c :: cs, rfl, h⟩
      · obtain ⟨t, u, heq, hu⟩ := ih.mp h
        exact ⟨c :: t, u, by rw [heq]; rfl, hu⟩
    · rintro ⟨t, u, heq, hu⟩
      cases t with
      | nil =>
        left
        simp only [List.nil_append] at heq
        rw [heq]
        exact hu
      | cons a t2 =>
        right
        injection heq with h1 h2
        exact ih.mpr ⟨t2, u, h2, hu⟩

/-- The pattern `%` alone matches every string. -/
theorem sqlLike_all (s : List Char) : sqlLike ['%'] s = true := by
  rw [sqlLike_pct_iff]
  exact ⟨s, [], by simp, rfl⟩

/-- Semantics of a wildcard-free pattern followed by `%`: it matches
exactly the strings with a case-insensitively equal prefix. -/
theorem sqlLike_lit_pct : ∀ (sub s : List Char), noWild sub = true →
    (sqlLike (sub ++ ['%']) s = true ↔
      ∃ m u, s = m ++ u ∧ m.map asciiLower = sub.map asciiLower) := by
  intro sub
  induction sub with
  | nil =>
    intro s _
    simp only [List.nil_append, List.map_nil]
    constructor
    · intro _
      exact ⟨[], s, rfl, rfl⟩
    · intro _
      exact sqlLike_all s
  | cons c sub ih =>
    intro s hw
    simp only [noWild, List.all_cons, Bool.and_eq_true, bne_iff_ne, ne_eq] at hw
    obtain ⟨⟨hc1, hc2⟩, hsub⟩ := hw
    have hsub2 : noWild sub = true := by
      simp only [noWild]
      exact hsub
    cases s with
    | nil =>
      rw [show (c :: sub) ++ ['%'] = c :: (sub ++ ['%']) from rfl,
        sqlLike_cons_nil _ _ hc1]
      constructor
      · intro h; exact absurd h (by simp)
      · rintro ⟨m, u, heq, hm⟩
        cases m with
        | nil => simp at hm
        | cons a m2 => simp at heq
    | cons d ds =>
      rw [show (c :: sub) ++ ['%'] = c :: (sub ++ ['%']) from rfl,
        sqlLike_cons_cons _ _ _ _ hc1, if_neg hc2, Bool.and_eq_true]
      constructor
      · rintro ⟨hcd, hrest⟩
        obtain ⟨m, u, heq, hm⟩ := (ih ds hsub2).mp hrest
        have hlow : asciiLower c = asciiLower d := by
          simpa [likeCharEq] using hcd
        exact ⟨d :: m, u, by simp [heq], by simp [List.map_cons, hm, hlow]⟩
      · rintro ⟨m, u, heq, hm⟩
        cases m with
        | nil => simp at hm
        | cons a m2 =>
          injection heq with h1 h2
          subst h1
          simp only [List.map_cons, List.cons.injEq] at hm
          obtain ⟨hm1, hm2⟩ := hm
          constructor
          · simp [likeCharEq, hm1]
          · exact (ih ds hsub2).mpr ⟨m2, u, h2, hm2⟩

/-- Semantics of `ciStarts`: a case-insensitive prefix. -/
theorem ciStarts_iff : ∀ (sub s : List Char),
    ciStarts sub s = true ↔ ∃ m u, s = m ++ u ∧ m.map asciiLower = sub.map asciiLower := by
  intro sub
  induction sub with
  | nil =>
    intro s
    simp only [ciStarts, List.map_nil]
    constructor
    · intro _; exact ⟨[], s, rfl, rfl⟩
    · intro _; trivial
  | cons c sub ih =>
    intro s
    cases s with
    | nil =>
      simp only [ciStarts]
      constructor
      · intro h; exact absurd h (by simp)
      · rintro ⟨m, u, heq, hm⟩
        cases m with
        | nil => simp at hm
        | cons a m2 => simp at heq
    | cons d ds =>
      simp only [ciStarts, Bool.and_eq_true, beq_iff_eq]
      constructor
      · rintro ⟨hcd, h⟩
        obtain ⟨m, u, heq, hm⟩ := (ih ds).mp h
        exact ⟨d :: m, u, by simp [heq], by simp [List.map_cons, hm, hcd]⟩
      · rintro ⟨m, u, heq, hm⟩
        cases m with
        | nil => simp at hm
        | cons a m2 =>
          injection heq with h1 h2
          subst h1
          simp only [List.map_cons, List.cons.injEq] at hm
          obtain ⟨hm1, hm2⟩ := hm
          exact ⟨hm1.symm, (ih ds).mpr ⟨m2, u, h2, hm2⟩⟩

/-- Semantics of `ciSub`: a case-insensitive occurrence somewhere in
the string. -/
theorem ciSub_iff (sub : List Char) : ∀ s : List Char, ciSub sub s = true ↔
    ∃ t rest, s = t ++ rest ∧ ciStarts sub rest = true := by
  intro s
  induction s with
  | nil =>
    simp only [ciSub]
    constructor
    · intro h
      refine ⟨[], [], rfl, ?_⟩
      cases sub with
      | nil => rfl
      | cons a l => exact absurd h (by simp)
    · rintro ⟨t, rest, heq, hst⟩
      obtain ⟨rfl, rfl⟩ := List.append_eq_nil.mp heq.symm
      cases sub with
      | nil => rfl
      | cons a l => exact absurd hst (by simp [ciStarts])
  | cons d ds ih =>
    simp only [ciSub, Bool.or_eq_true]
    constructor
    · rintro (h | h)
      · exact ⟨[], d :: ds, rfl, h⟩
      · obtain ⟨t, rest, heq, hst⟩ := ih.mp h
        exact ⟨d :: t, rest, by simp [heq], hst⟩
    · rintro ⟨t, rest, heq, hst⟩
      cases t with
      | nil =>
        left
        simp only [List.nil_append] at heq
        rw [heq]
        exact hst
      | cons a t2 =>
        right
        injection heq with h1 h2
        exact ih.mpr ⟨t2, rest, h2, hst⟩

/-- The query pattern `%sub%` built from a wildcard-free `sub` matches a
string exactly when `sub` occurs in it case-insensitively. -/
theorem sqlLike_contains (sub s : List Char) (hw : noWild sub = true) :
    sqlLike ('%' :: (sub ++ ['%'])) s = ciSub sub s := by
  apply bool_eq_of_true_iff
  rw [sqlLike_pct_iff, ciSub_iff]
  constructor
  · rintro ⟨t, u, heq, hu⟩
    exact ⟨t, u, heq, (ciStarts_iff sub u).mpr ((sqlLike_lit_pct sub u hw).mp hu)⟩
  · rintro ⟨t, rest, heq, hst⟩
    exact ⟨t, rest, heq, (sqlLike_lit_pct sub rest hw).mpr ((ciStarts_iff sub rest).mp hst)⟩

/-- The foreign-key check in `Prop` form. -/
theorem softFKBool_iff (st : FileIndexState) : softFKBool st = true ↔
    ∀ s ∈ st.soft.view, ∃ h ∈ st.hard.view, h.path = s.hard_path := by
  simp [softFKBool, List.all_eq_true, List.any_eq_true, beq_iff_eq]

/-- A failing hard-record batch commits nothing. -/
theorem insertHardGo_false_committed :
    ∀ (rs : List HardFileRecord) (t t2 : TableState HardFileRecord),
      insertHardGo t rs = (t2, false) → t2.committed = t.committed := by
  intro rs
  induction rs with
  | nil =>
    intro t t2 h
    simp [insertHardGo] at h
  | cons r rs ih =>
    intro t t2 h
    by_cases hd : (t.view.any fun x => x.path == r.path) = true
    · simp only [insertHardGo, hd, if_true, Prod.mk.injEq] at h
      rw [← h.1]
    · simp only [insertHardGo, hd, if_false, Bool.false_eq_true] at h
      exact ih ⟨t.committed, t.pending ++ [r]⟩ t2 h

/-- A failing soft-record batch commits nothing. -/
theorem insertSoftGo_false_committed :
    ∀ (rs : List SoftFileRecord) (t t2 : TableState SoftFileRecord),
      insertSoftGo t rs = (t2, false) → t2.committed = t.committed := by
  intro rs
  induction rs with
  | nil =>
    intro t t2 h
    simp [insertSoftGo] at h
  | cons r rs ih =>
    intro t t2 h
    by_cases hd : (t.view.any fun x => x.path == r.path) = true
    · simp only [insertSoftGo, hd, if_true, Prod.mk.injEq] at h
      rw [← h.1]
    · simp only [insertSoftGo, hd, if_false, Bool.false_eq_true] at h
      exact ih ⟨t.committed, t.pending ++ [r]⟩ t2 h

/-- A raising node-record batch commits nothing. -/
theorem insertNodeGo_error_committed :
    ∀ (rs : List NodeRecord) (t t2 : TableState NodeRow) (e : DbError),
      insertNodeGo t rs = (t2, Except.error e) → t2.committed = t.committed := by
  intro rs
  induction rs with
  | nil =>
    intro t t2 e h
    simp [insertNodeGo] at h
  | cons r rs ih =>
    intro t t2 e h
    by_cases hv : is_valid_container_reference t r = true
    · by_cases hd : (t.view.any fun row =>
          row.hard_file_path == r.hard_file_path && row.name == r.name) = true
      · simp only [insertNodeGo, hv, hd, Bool.not_true, if_true, if_false,
          Bool.false_eq_true, Prod.mk.injEq] at h
        rw [← h.1]
      · simp only [insertNodeGo, hv, hd, Bool.not_true, if_false, Bool.false_eq_true] at h
        rcases h2 : insertNodeGo ⟨t.committed, t.pending ++ [nodeRowOf r]⟩ rs with ⟨t3, r3⟩
        rw [h2] at h
        cases r3 with
        | ok n => simp at h
        | error e2 =>
          simp only [Prod.mk.injEq] at h
          rw [← h.1]
          exact ih ⟨t.committed, t.pending ++ [nodeRowOf r]⟩ t3 e2 h2
    · simp only [insertNodeGo, Bool.not_eq_true] at h
      rw [Bool.not_eq_true] at hv
      simp only [hv, Bool.not_false, if_true, Prod.mk.injEq] at h
      rw [← h.1]

/-- `insert_node_records` commits nothing when it raises. -/
theorem insert_node_records_error_committed
    (t t2 : TableState NodeRow) (rs : List NodeRecord) (e : DbError)
    (h : insert_node_records t rs = (t2, Except.error e)) : t2.committed = t.committed := by
  unfold insert_node_records at h
  rcases h2 : insertNodeGo t rs with ⟨t3, r3⟩
  rw [h2] at h
  cases r3 with
  | ok n => simp at h
  | error e2 =>
    simp only [Prod.mk.injEq] at h
    rw [← h.1]
    exact insertNodeGo_error_committed rs t t3 e2 h2

/-- A hard batch whose first record collides on the primary key fails
and leaves the connection state exactly as it was. -/
theorem insert_hard_dup_first (st : FileIndexState) (r : HardFileRecord)
    (rs : List HardFileRecord)
    (h : ∃ x ∈ st.hard.view, x.path = r.path) :
    insert_hard_records st (r :: rs) = (false, st) := by
  have hd : (st.hard.view.any fun x => x.path == r.path) = true := by
    simp only [List.any_eq_true, beq_iff_eq]
    exact h
  simp only [insert_hard_records, insertHardGo]
  rw [hd]
  simp

/-- A soft batch whose first record collides on the primary key fails
and leaves the connection state exactly as it was. -/
theorem insert_soft_dup_first (st : FileIndexState) (r : SoftFileRecord)
    (rs : List SoftFileRecord)
    (h : ∃ x ∈ st.soft.view, x.path = r.path) :
    insert_soft_records st (r :: rs) = (false, st) := by
  have hd : (st.soft.view.any fun x => x.path == r.path) = true := by
    simp only [List.any_eq_true, beq_iff_eq]
    exact h
  simp only [insert_soft_records, insertSoftGo]
  rw [hd]
  simp

/-- Inserting one fresh hard record succeeds and appends it. -/
theorem insert_hard_single_fresh (st : FileIndexState) (r : HardFileRecord)
    (h : ∀ x ∈ st.hard.view, x.path ≠ r.path) :
    insert_hard_records st [r] = (true, ⟨⟨st.hard.view ++ [r], []⟩, st.soft⟩) := by
  have hd : (st.hard.view.any fun x => x.path == r.path) = false := by
    simp only [List.any_eq_false, beq_iff_eq]
    exact h
  simp only [insert_hard_records, insertHardGo]
  rw [hd]
  simp [TableState.commit, TableState.view, List.append_assoc]

/-- Inserting one fresh soft record succeeds and appends it. -/
theorem insert_soft_single_fresh (st : FileIndexState) (r : SoftFileRecord)
    (h : ∀ x ∈ st.soft.view, x.path ≠ r.path) :
    insert_soft_records st [r] = (true, ⟨st.hard, ⟨st.soft.view ++ [r], []⟩⟩) := by
  have hd : (st.soft.view.any fun x => x.path == r.path) = false := by
    simp only [List.any_eq_false, beq_iff_eq]
    exact h
  simp only [insert_soft_records, insertSoftGo]
  rw [hd]
  simp [TableState.commit, TableState.view, List.append_assoc]

/-- A single soft insert either changes nothing (duplicate) or appends
the record; in both cases the pending list ends empty when it started
empty. -/
theorem insert_soft_single_cases (st : FileIndexState) (p : SoftFileRecord) :
    (insert_soft_records st [p]).2 = st ∨
    (insert_soft_records st [p]).2 = ⟨st.hard, ⟨st.soft.view ++ [p], []⟩⟩ := by
  by_cases hd : (st.soft.view.any fun x => x.path == p.path) = true
  · left
    simp only [insert_soft_records, insertSoftGo]
    rw [hd]
    simp
  · right
    rw [Bool.not_eq_true] at hd
    simp only [insert_soft_records, insertSoftGo]
    rw [hd]
    simp [TableState.commit, TableState.view, List.append_assoc]

/-- A single hard insert either changes nothing (duplicate) or appends
the record. -/
theorem insert_hard_single_cases (st : FileIndexState) (p : HardFileRecord) :
    (insert_hard_records st [p]).2 = st ∨
    (insert_hard_records st [p]).2 = ⟨⟨st.hard.view ++ [p], []⟩, st.soft⟩ := by
  by_cases hd : (st.hard.view.any fun x => x.path == p.path) = true
  · left
    simp only [insert_hard_records, insertHardGo]
    rw [hd]
    simp
  · right
    rw [Bool.not_eq_true] at hd
    simp only [insert_hard_records, insertHardGo]
    rw [hd]
    simp [TableState.commit, TableState.view, List.append_assoc]

/-- A node batch whose first record has an unmatched container reference
raises at once, leaving the state untouched. -/
theorem insert_node_invalid_first (t : TableState NodeRow) (r : NodeRecord)
    (rs : List NodeRecord) (h : is_valid_container_reference t r = false) :
    insert_node_records t (r :: rs) = (t, Except.error DbError.integrityError) := by
  simp [insert_node_records, insertNodeGo, h]

/-- A node batch whose first record passes the container check but
collides on the `(hard_file_path, name)` primary key raises at once. -/
theorem insert_node_dup_first (t : TableState NodeRow) (r : NodeRecord)
    (rs : List NodeRecord) (hv : is_valid_container_reference t r = true)
    (h : ∃ row ∈ t.view, row.hard_file_path = r.hard_file_path ∧ row.name = r.name) :
    insert_node_records t (r :: rs) = (t, Except.error DbError.integrityError) := by
  have hd : (t.view.any fun row =>
      row.hard_file_path == r.hard_file_path && row.name == r.name) = true := by
    simp only [List.any_eq_true, Bool.and_eq_true, beq_iff_eq]
    exact h
  simp only [insert_node_records, insertNodeGo, hv]
  rw [hd]
  simp

/-- Inserting one valid, fresh node record succeeds and appends its row. -/
theorem insert_node_single_fresh (t : TableState NodeRow) (r : NodeRecord)
    (hv : is_valid_container_reference t r = true)
    (h : ∀ row ∈ t.view, ¬(row.hard_file_path = r.hard_file_path ∧ row.name = r.name)) :
    insert_node_records t [r] = (⟨t.view ++ [nodeRowOf r], []⟩, Except.ok true) := by
  have hd : (t.view.any fun row =>
      row.hard_file_path == r.hard_file_path && row.name == r.name) = false := by
    simp only [List.any_eq_false, Bool.and_eq_true, beq_iff_eq]
    intro row hrow
    exact fun hc => h row hrow ⟨hc.1, hc.2⟩
  simp only [insert_node_records, insertNodeGo, hv]
  rw [hd]
  simp [TableState.commit, TableState.view, List.append_assoc]

/-- Walk invariant for clean trees: when every file is stat-able, no
path is a symlink, walked paths are distinct and no resolved path
`LIKE`-matches another, the loop appends exactly one hard and one soft
record per file. -/
theorem populateLoop_clean :
    ∀ (fs : List WalkFile) (st : FileIndexState),
      st.hard.pending = [] → st.soft.pending = [] →
      (∀ f ∈ fs, f.statOk = true) →
      (∀ f ∈ fs, f.absPath = f.resolvedPath) →
      (∀ f g, f ∈ fs → g ∈ fs → sqlLike f.resolvedPath g.resolvedPath = true →
        f.resolvedPath = g.resolvedPath) →
      List.Pairwise (fun f g => f.absPath ≠ g.absPath) fs →
      (∀ f ∈ fs, ∀ r ∈ st.hard.committed, sqlLike f.resolvedPath r.path = false) →
      (∀ f ∈ fs, ∀ s ∈ st.soft.committed, s.path ≠ f.absPath) →
      populateLoop st fs =
        (⟨⟨st.hard.committed ++ fs.map hardRecordOf, []⟩,
          ⟨st.soft.committed ++ fs.map softRecordOf, []⟩⟩, none) := by
  intro fs
  induction fs with
  | nil =>
    intro st h1 h2 _ _ _ _ _ _
    simp only [populateLoop, List.map_nil, List.append_nil]
    rw [show st = (⟨⟨st.hard.committed, []⟩, ⟨st.soft.committed, []⟩⟩ : FileIndexState) by
      cases st with
      | mk hard soft =>
        cases hard
        cases soft
        simp_all]
  | cons f fs ih =>
    intro st h1 h2 hstat habs hinj hpw hq hs
    have hf : f ∈ f :: fs := List.mem_cons_self f fs
    have hview : st.hard.view = st.hard.committed := by
      simp [TableState.view, h1]
    have hsview : st.soft.view = st.soft.committed := by
      simp [TableState.view, h2]
    have hqe : query_hard_records st f.resolvedPath = [] := by
      unfold query_hard_records
      rw [hview]
      apply List.filter_eq_nil_iff.mpr
      intro r hr
      simp [hq f hf r hr]
    have hfresh : ∀ x ∈ st.hard.view, x.path ≠ (hardRecordOf f).path := by
      intro x hx heqp
      have hl : sqlLike f.resolvedPath x.path = true := by
        have : x.path = f.resolvedPath := heqp
        rw [this]
        exact sqlLike_refl _
      have := hq f hf x (hview ▸ hx)
      simp_all
    have hsfresh : ∀ x ∈ st.soft.view, x.path ≠ (softRecordOf f).path := by
      intro x hx
      rw [hsview] at hx
      exact hs f hf x hx
    have hpc := List.pairwise_cons.mp hpw
    simp only [populateLoop]
    rw [hqe]
    simp only [List.isEmpty_nil, if_true]
    rw [hstat f hf]
    simp only [if_true]
    rw [insert_hard_single_fresh st (hardRecordOf f) hfresh]
    simp only
    rw [insert_soft_single_fresh ⟨⟨st.hard.view ++ [hardRecordOf f], []⟩, st.soft⟩
      (softRecordOf f) hsfresh]
    simp only
    have hrec := ih ⟨⟨st.hard.view ++ [hardRecordOf f], []⟩,
        ⟨st.soft.view ++ [softRecordOf f], []⟩⟩ rfl rfl
      (fun g hg => hstat g (List.mem_cons_of_mem f hg))
      (fun g hg => habs g (List.mem_cons_of_mem f hg))
      (fun g g2 hg hg2 => hinj g g2 (List.mem_cons_of_mem f hg) (List.mem_cons_of_mem f hg2))
      hpc.2
      (by
        intro g hg r hr
        simp only [TableState.view] at hr
        rcases List.mem_append.mp hr with hr1 | hr2
        · rcases List.mem_append.mp hr1 with hr3 | hr4
          · exact hq g (List.mem_cons_of_mem f hg) r (by rw [← hview]; exact List.mem_append.mpr (Or.inl hr3))
          · exact hq g (List.mem_cons_of_mem f hg) r (by rw [← hview]; exact List.mem_append.mpr (Or.inr hr4))
        · have hr5 : r = hardRecordOf f := by simpa using hr2
          subst hr5
          by_cases hgl : sqlLike g.resolvedPath (hardRecordOf f).path = true
          · exfalso
            have hge : g.resolvedPath = f.resolvedPath :=
              hinj g f (List.mem_cons_of_mem f hg) hf hgl
            have : f.absPath = g.absPath := by
              rw [habs f hf, habs g (List.mem_cons_of_mem f hg), hge]
            exact hpc.1 g hg this
          · exact Bool.not_eq_true _ ▸ (by simpa using hgl))
      (by
        intro g hg x hx
        simp only [TableState.view] at hx
        rcases List.mem_append.mp hx with hx1 | hx2
        · rcases List.mem_append.mp hx1 with hx3 | hx4
          · exact hs g (List.mem_cons_of_mem f hg) x (by
              have : x ∈ st.soft.view := List.mem_append.mpr (Or.inl hx3)
              rw [hsview] at this
              exact this)
          · exact hs g (List.mem_cons_of_mem f hg) x (by
              have : x ∈ st.soft.view := List.mem_append.mpr (Or.inr hx4)
              rw [hsview] at this
              exact this)
        · have hx5 : x = softRecordOf f := by simpa using hx2
          subst hx5
          exact fun hcc => hpc.1 g hg hcc)
    rw [hrec]
    simp [TableState.view, h1, h2, hview, hsview, List.append_assoc, List.map_cons,
      List.singleton_append]

/-- A single soft insert never touches the hard table. -/
theorem insert_soft_keeps_hard (st : FileIndexState) (p : SoftFileRecord) :
    (insert_soft_records st [p]).2.hard = st.hard := by
  rcases insert_soft_single_cases st p with h | h <;> rw [h]

/-- A single soft insert leaves no pending soft rows when none were
pending. -/
theorem insert_soft_pending_empty (st : FileIndexState) (p : SoftFileRecord)
    (h2 : st.soft.pending = []) :
    (insert_soft_records st [p]).2.soft.pending = [] := by
  rcases insert_soft_single_cases st p with h | h <;> rw [h]
  · exact h2

/-- Appending a hard record preserves the foreign-key invariant. -/
theorem softFK_extend_hard (st : FileIndexState) (r : HardFileRecord)
    (hFK : softFKBool st = true) :
    softFKBool ⟨⟨st.hard.view ++ [r], []⟩, st.soft⟩ = true := by
  rw [softFKBool_iff] at hFK ⊢
  intro s hs
  obtain ⟨h, hh, he⟩ := hFK s hs
  refine ⟨h, ?_, he⟩
  simp only [TableState.view, List.append_nil]
  exact List.mem_append.mpr (Or.inl hh)

/-- A soft insert whose record references a present hard path preserves
the foreign-key invariant. -/
theorem softFK_insert_soft (st : FileIndexState) (p : SoftFileRecord)
    (hFK : softFKBool st = true)
    (hp : ∃ h ∈ st.hard.view, h.path = p.hard_path) :
    softFKBool (insert_soft_records st [p]).2 = true := by
  rcases insert_soft_single_cases st p with hcase | hcase <;> rw [hcase]
  · exact hFK
  · rw [softFKBool_iff] at hFK ⊢
    intro s hs
    simp only [TableState.view, List.append_nil] at hs
    rcases List.mem_append.mp hs with h3 | h4
    · exact hFK s h3
    · have : s = p := by simpa using h4
      subst this
      exact hp

/-- Walk invariant for the foreign key: when `LIKE`-matches between
resolved paths only occur at equal paths, every reachable loop state
satisfies the soft-to-hard foreign key. -/
theorem populateLoop_fk :
    ∀ (fs : List WalkFile) (st : FileIndexState),
      st.hard.pending = [] → st.soft.pending = [] →
      softFKBool st = true →
      (∀ f ∈ fs, ∀ r ∈ st.hard.committed, sqlLike f.resolvedPath r.path = true →
        r.path = f.resolvedPath) →
      (∀ f g, f ∈ fs → g ∈ fs → sqlLike f.resolvedPath g.resolvedPath = true →
        f.resolvedPath = g.resolvedPath) →
      softFKBool (populateLoop st fs).1 = true := by
  intro fs
  induction fs with
  | nil =>
    intro st _ _ hFK _ _
    simpa [populateLoop] using hFK
  | cons f fs ih =>
    intro st h1 h2 hFK hc hinj
    have hf : f ∈ f :: fs := List.mem_cons_self f fs
    have hview : st.hard.view = st.hard.committed := by simp [TableState.view, h1]
    simp only [populateLoop]
    by_cases hqe : (query_hard_records st f.resolvedPath).isEmpty = true
    · rw [hqe]
      simp only [if_true]
      by_cases hst : f.statOk = true
      · rw [hst]
        simp only [if_true]
        have hfresh : ∀ x ∈ st.hard.view, x.path ≠ (hardRecordOf f).path := by
          intro x hx heqp
          have hl : sqlLike f.resolvedPath x.path = true := by
            have hxp : x.path = f.resolvedPath := heqp
            rw [hxp]
            exact sqlLike_refl _
          have hmem : x ∈ query_hard_records st f.resolvedPath :=
            List.mem_filter.mpr ⟨hx, hl⟩
          rw [List.isEmpty_iff] at hqe
          rw [hqe] at hmem
          exact absurd hmem (List.not_mem_nil x)
        rw [insert_hard_single_fresh st (hardRecordOf f) hfresh]
        simp only
        apply ih
        · rw [insert_soft_keeps_hard]
        · exact insert_soft_pending_empty _ _ h2
        · apply softFK_insert_soft
          · exact softFK_extend_hard st (hardRecordOf f) hFK
          · refine ⟨hardRecordOf f, ?_, rfl⟩
            simp only [TableState.view, List.append_nil]
            exact List.mem_append.mpr (Or.inr (List.mem_singleton.mpr rfl))
        · intro g hg r2 hr2
          rw [insert_soft_keeps_hard] at hr2
          simp only at hr2
          rcases List.mem_append.mp hr2 with hr3 | hr4
          · rw [hview] at hr3
            exact hc g (List.mem_cons_of_mem f hg) r2 hr3
          · have hr5 : r2 = hardRecordOf f := by simpa using hr4
            subst hr5
            intro hl
            have := hinj g f (List.mem_cons_of_mem f hg) hf hl
            rw [this]
            rfl
        · intro g g2 hg hg2
          exact hinj g g2 (List.mem_cons_of_mem f hg) (List.mem_cons_of_mem f hg2)
      · rw [Bool.not_eq_true] at hst
        rw [hst]
        simp only [Bool.false_eq_true, if_false]
        exact hFK
    · rw [Bool.not_eq_true] at hqe
      rw [hqe]
      simp only [Bool.false_eq_true, if_false]
      have hex : ∃ h ∈ st.hard.view, h.path = (softRecordOf f).hard_path := by
        have hne : query_hard_records st f.resolvedPath ≠ [] := by
          intro h0
          rw [h0] at hqe
          simp at hqe
        obtain ⟨x, hx⟩ := List.exists_mem_of_ne_nil _ hne
        have hx2 := List.mem_filter.mp hx
        refine ⟨x, hx2.1, ?_⟩
        have := hc f hf x (hview ▸ hx2.1) hx2.2
        exact this
      apply ih
      · rw [insert_soft_keeps_hard]
        exact h1
      · exact insert_soft_pending_empty _ _ h2
      · exact softFK_insert_soft st (softRecordOf f) hFK hex
      · intro g hg r2 hr2
        rw [insert_soft_keeps_hard] at hr2
        exact hc g (List.mem_cons_of_mem f hg) r2 hr2
      · intro g g2 hg hg2
        exact hinj g g2 (List.mem_cons_of_mem f hg) (List.mem_cons_of_mem f hg2)

/-- Walk invariant for soft records: when every file is stat-able and
walked paths are distinct, the loop finishes without error and appends
exactly one soft record per walked path, whatever the hard store does. -/
theorem populateLoop_soft :
    ∀ (fs : List WalkFile) (st : FileIndexState),
      st.hard.pending = [] → st.soft.pending = [] →
      (∀ f ∈ fs, f.statOk = true) →
      List.Pairwise (fun f g => f.absPath ≠ g.absPath) fs →
      (∀ f ∈ fs, ∀ s ∈ st.soft.committed, s.path ≠ f.absPath) →
      (populateLoop st fs).2 = none ∧
      (populateLoop st fs).1.soft.view = st.soft.committed ++ fs.map softRecordOf := by
  intro fs
  induction fs with
  | nil =>
    intro st _ h2 _ _ _
    simp [populateLoop, TableState.view, h2]
  | cons f fs ih =>
    intro st h1 h2 hstat hpw hs
    have hf : f ∈ f :: fs := List.mem_cons_self f fs
    have hsview : st.soft.view = st.soft.committed := by simp [TableState.view, h2]
    have hpc := List.pairwise_cons.mp hpw
    simp only [populateLoop]
    by_cases hqe : (query_hard_records st f.resolvedPath).isEmpty = true
    · rw [hqe]
      simp only [if_true]
      rw [hstat f hf]
      simp only [if_true]
      rcases insert_hard_single_cases st (hardRecordOf f) with hcase | hcase <;> rw [hcase]
      · have hsfresh : ∀ x ∈ st.soft.view, x.path ≠ (softRecordOf f).path := by
          intro x hx
          rw [hsview] at hx
          exact hs f hf x hx
        rw [insert_soft_single_fresh st (softRecordOf f) hsfresh]
        simp only
        have hrec := ih ⟨st.hard, ⟨st.soft.view ++ [softRecordOf f], []⟩⟩ h1 rfl
          (fun g hg => hstat g (List.mem_cons_of_mem f hg)) hpc.2
          (by
            intro g hg x hx
            simp only at hx
            rcases List.mem_append.mp hx with hx1 | hx2
            · rw [hsview] at hx1
              exact hs g (List.mem_cons_of_mem f hg) x hx1
            · have : x = softRecordOf f := by simpa using hx2
              subst this
              exact fun hcc => hpc.1 g hg hcc)
        refine ⟨hrec.1, ?_⟩
        rw [hrec.2]
        simp [hsview, List.append_assoc, List.map_cons, List.singleton_append]
      · have hsfresh : ∀ x ∈ (⟨⟨st.hard.view ++ [hardRecordOf f], []⟩, st.soft⟩ :
            FileIndexState).soft.view, x.path ≠ (softRecordOf f).path := by
          intro x hx
          simp only at hx
          rw [hsview] at hx
          exact hs f hf x hx
        rw [insert_soft_single_fresh _ (softRecordOf f) hsfresh]
        simp only
        have hrec := ih ⟨⟨st.hard.view ++ [hardRecordOf f], []⟩,
            ⟨st.soft.view ++ [softRecordOf f], []⟩⟩ rfl rfl
          (fun g hg => hstat g (List.mem_cons_of_mem f hg)) hpc.2
          (by
            intro g hg x hx
            simp only at hx
            rcases List.mem_append.mp hx with hx1 | hx2
            · rw [hsview] at hx1
              exact hs g (List.mem_cons_of_mem f hg) x hx1
            · have : x = softRecordOf f := by simpa using hx2
              subst this
              exact fun hcc => hpc.1 g hg hcc)
        refine ⟨hrec.1, ?_⟩
        rw [hrec.2]
        simp [hsview, List.append_assoc, List.map_cons, List.singleton_append]
    · rw [Bool.not_eq_true] at hqe
      rw [hqe]
      simp only [Bool.false_eq_true, if_false]
      have hsfresh : ∀ x ∈ st.soft.view, x.path ≠ (softRecordOf f).path := by
        intro x hx
        rw [hsview] at hx
        exact hs f hf x hx
      rw [insert_soft_single_fresh st (softRecordOf f) hsfresh]
      simp only
      have hrec := ih ⟨st.hard, ⟨st.soft.view ++ [softRecordOf f], []⟩⟩ h1 rfl
        (fun g hg => hstat g (List.mem_cons_of_mem f hg)) hpc.2
        (by
          intro g hg x hx
          simp only at hx
          rcases List.mem_append.mp hx with hx1 | hx2
          · rw [hsview] at hx1
            exact hs g (List.mem_cons_of_mem f hg) x hx1
          · have : x = softRecordOf f := by simpa using hx2
            subst this
            exact fun hcc => hpc.1 g hg hcc)
      refine ⟨hrec.1, ?_⟩
      rw [hrec.2]
      simp [hsview, List.append_assoc, List.map_cons, List.singleton_append]

/-- With `wipe=true` the initial store is irrelevant: the schema is
dropped, recreated and wiped before anything else happens. -/
theorem populate_index_wipe (st0 : FileIndexState) (dir : InputDir) :
    populate_index st0 dir true =
      (if !dir.isDir then (FileIndexState.empty, some PopError.invalidDir)
       else populateLoop FileIndexState.empty dir.files) := rfl

/-- A directory with two regular files whose second name is the `LIKE`
wildcard `_`: the populator's existence probe for `/r/_` matches the
already-stored `/r/x`. -/
def treeWildcard : InputDir :=
  ⟨true, [⟨"/r/x".toList, "/r/x".toList, [], true, true, 0⟩,
          ⟨"/r/_".toList, "/r/_".toList, [], true, true, 0⟩]⟩

/-- A directory with two ordinary regular files. -/
def tree2 : InputDir :=
  ⟨true, [⟨"/d/a".toList, "/d/a".toList, [104, 10], true, true, 2⟩,
          ⟨"/d/b".toList, "/d/b".toList, [], true, true, 0⟩]⟩

/-- A walk whose first file disappears between listing and `stat` (both
the reads and the `stat` call fail), followed by a healthy file. -/
def treeStatFail : InputDir :=
  ⟨true, [⟨"/r/gone".toList, "/r/gone".toList, [], false, false, 0⟩,
          ⟨"/r/ok".toList, "/r/ok".toList, [104, 105, 10], true, true, 3⟩]⟩

/-- Bytes that pass the NUL probe but are not valid UTF-8 (0xFF). -/
def c5bytes : List Nat := [97, 10, 255, 10]

/-- A regular file holding `c5bytes`. -/
def c5file : WalkFile := ⟨"/d/f".toList, "/d/f".toList, c5bytes, true, true, 4⟩

/-- A directory containing only `c5file`. -/
def treeC5 : InputDir := ⟨true, [c5file]⟩

/-- A directory containing one symlink whose target lies outside the
walked tree: only the link path is walked, the canonical path is not. -/
def treeSymlinkOut : InputDir :=
  ⟨true, [⟨"/r/link".toList, "/out/t".toList, [], true, true, 0⟩]⟩

/-- A directory containing a regular file and a symlink to it. -/
def treeSymlinkIn : InputDir :=
  ⟨true, [⟨"/r/a".toList, "/r/a".toList, [], true, true, 0⟩,
          ⟨"/r/link".toList, "/r/a".toList, [], true, true, 0⟩]⟩

/-- A stored hard record whose path `ab` contains no wildcard character. -/
def recAB : HardFileRecord := ⟨"ab".toList, 0, false, 0, true⟩

/-- A file store holding only `recAB`, committed. -/
def stAB : FileIndexState := ⟨⟨[recAB], []⟩, TableState.empty⟩

/-- A root path that is not an existing directory. -/
def dirMissing : InputDir := ⟨false, []⟩

/-- A container-less node. -/
def nodeRecX : NodeRecord := ⟨"f".toList, "x".toList, "t".toList, none⟩

/-- A node whose container string is the `LIKE` wildcard `_`: no node
named `_` exists, but the pre-check pattern-matches `x`. -/
def nodeRecWild : NodeRecord := ⟨"f".toList, "y".toList, "t".toList, some ("_".toList)⟩

/-- A node naming a container that does not exist at all. -/
def nodeOrphan : NodeRecord := ⟨"f".toList, "c".toList, "t".toList, some ("x".toList)⟩

/-- A node correctly naming `nodeRecX` as its container. -/
def nodeChildOfX : NodeRecord := ⟨"f".toList, "y2".toList, "t".toList, some ("x".toList)⟩

/-- Three distinct hard records for the batch-failure scenario. -/
def hardRec1 : HardFileRecord := ⟨"/a/1".toList, 1, false, 0, true⟩

/-- Second record of the batch-failure scenario. -/
def hardRec2 : HardFileRecord := ⟨"/a/2".toList, 2, false, 0, true⟩

/-- Third record of the batch-failure scenario. -/
def hardRec3 : HardFileRecord := ⟨"/a/3".toList, 3, false, 0, true⟩

/-- The store after committing `hardRec1` alone. -/
def stC7 : FileIndexState := (insert_hard_records FileIndexState.empty [hardRec1]).2

/-- C1 (amended): after a `wipe=true` run of `populate_index` over a tree
in which a resolved path, used as a `LIKE` pattern, only matches equal
resolved paths, every soft record's `hard_path` names a stored hard
record. (The original claim, quantified over all trees, fails: the
existence probe uses the resolved path as a `LIKE` pattern, see the
counterexample.) -/
theorem C1_soft_fk_amended (st0 : FileIndexState) (dir : InputDir)
    (hinj : ∀ f ∈ dir.files, ∀ g ∈ dir.files,
      sqlLike f.resolvedPath g.resolvedPath = true → f.resolvedPath = g.resolvedPath) :
    softFKBool (populate_index st0 dir true).1 = true := by
  rw [populate_index_wipe]
  by_cases hd : dir.isDir = true
  · rw [hd]
    simp only [Bool.not_true, Bool.false_eq_true, if_false]
    apply populateLoop_fk dir.files FileIndexState.empty rfl rfl rfl
    · intro f hf r hr
      exact absurd hr (List.not_mem_nil r)
    · intro f g hf hg
      exact hinj f hf g hg
  · rw [Bool.not_eq_true] at hd
    rw [hd]
    rfl

/-- Witness for C1: a concrete wildcard-free tree. -/
theorem C1_soft_fk_witness :
    softFKBool (populate_index FileIndexState.empty tree2 true).1 = true :=
  C1_soft_fk_amended FileIndexState.empty tree2 (by decide)

/-- Counterexample to C1 as stated: over `treeWildcard` the run succeeds
but leaves a soft record (`/r/_`) whose `hard_path` matches no hard
record, because the existence probe for `/r/_` `LIKE`-matched `/r/x`. -/
theorem C1_soft_fk_cex :
    (populate_index FileIndexState.empty treeWildcard true).2 = none ∧
    softFKBool (populate_index FileIndexState.empty treeWildcard true).1 = false := by decide

/-- C2 (amended): for trees of stat-able regular files, no symlinks,
distinct paths, and no `LIKE`-collision between resolved paths, a
`wipe=true` population produces exactly one hard and one soft record per
file, each soft record self-referencing. (The original claim over all
wildcard-free-less trees fails, see the counterexample.) -/
theorem C2_clean_population_amended (st0 : FileIndexState) (dir : InputDir)
    (hd : dir.isDir = true)
    (hstat : ∀ f ∈ dir.files, f.statOk = true)
    (habs : ∀ f ∈ dir.files, f.absPath = f.resolvedPath)
    (hpw : List.Pairwise (fun f g => f.absPath ≠ g.absPath) dir.files)
    (hinj : ∀ f ∈ dir.files, ∀ g ∈ dir.files,
      sqlLike f.resolvedPath g.resolvedPath = true → f.resolvedPath = g.resolvedPath) :
    populate_index st0 dir true =
      (⟨⟨dir.files.map hardRecordOf, []⟩, ⟨dir.files.map softRecordOf, []⟩⟩, none) ∧
    (dir.files.map hardRecordOf).length = dir.files.length ∧
    (dir.files.map softRecordOf).length = dir.files.length ∧
    ∀ s ∈ dir.files.map softRecordOf, s.hard_path = s.path := by
  refine ⟨?_, by simp, by simp, ?_⟩
  · rw [populate_index_wipe, hd]
    simp only [Bool.not_true, Bool.false_eq_true, if_false]
    have h := populateLoop_clean dir.files FileIndexState.empty rfl rfl hstat habs
      (fun f g hf hg => hinj f hf g hg) hpw
      (by intro f hf r hr; exact absurd hr (List.not_mem_nil r))
      (by intro f hf s hs; exact absurd hs (List.not_mem_nil s))
    simpa using h
  · intro s hs
    obtain ⟨f, hf, rfl⟩ := List.mem_map.mp hs
    show f.resolvedPath = f.absPath
    exact (habs f hf).symm

/-- Witness for C2: the two-file tree `tree2`. -/
theorem C2_clean_population_witness :
    populate_index FileIndexState.empty tree2 true =
      (⟨⟨tree2.files.map hardRecordOf, []⟩, ⟨tree2.files.map softRecordOf, []⟩⟩, none) ∧
    (tree2.files.map hardRecordOf).length = tree2.files.length ∧
    (tree2.files.map softRecordOf).length = tree2.files.length ∧
    ∀ s ∈ tree2.files.map softRecordOf, s.hard_path = s.path :=
  C2_clean_population_amended FileIndexState.empty tree2 rfl (by decide) (by decide)
    (by decide) (by decide)

/-- Counterexample to C2 as stated: `treeWildcard` has two regular
files and no symlinks, yet population yields one hard record, not two. -/
theorem C2_clean_population_cex :
    treeWildcard.files.length = 2 ∧
    (populate_index FileIndexState.empty treeWildcard true).2 = none ∧
    (populate_index FileIndexState.empty treeWildcard true).1.hard.view.length = 1 := by decide

/-- C3 (amended): the container pre-check compares via `LIKE` patterns,
so `insert_node_records` raises an integrity error exactly when no
existing row pattern-matches the `(hard_file_path, container)` pair — a
record whose exact pair is absent can still be accepted when the strings
pattern-match another row (see the counterexample). When the first
record of a batch fails the check, the call raises and the state is
untouched; any raising call commits nothing. A container-less parent
followed, in a later call, by a fresh child naming it always succeeds. -/
theorem C3_node_integrity_amended :
    (∀ (t : TableState NodeRow) (r : NodeRecord) (rs : List NodeRecord) (c : List Char),
      r.container = some c →
      query_node_records t c r.hard_file_path = [] →
      insert_node_records t (r :: rs) = (t, Except.error DbError.integrityError)) ∧
    (∀ (t t2 : TableState NodeRow) (rs : List NodeRecord) (e : DbError),
      insert_node_records t rs = (t2, Except.error e) → t2.committed = t.committed) ∧
    (∀ (t : TableState NodeRow) (parent child : NodeRecord),
      parent.container = none →
      (∀ row ∈ t.view, ¬(row.hard_file_path = parent.hard_file_path ∧ row.name = parent.name)) →
      child.container = some parent.name →
      child.hard_file_path = parent.hard_file_path →
      (∀ row ∈ t.view, ¬(row.hard_file_path = child.hard_file_path ∧ row.name = child.name)) →
      child.name ≠ parent.name →
      (insert_node_records t [parent]).2 = Except.ok true ∧
      (insert_node_records ((insert_node_records t [parent]).1) [child]).2 = Except.ok true) := by
  refine ⟨?_, ?_, ?_⟩
  · intro t r rs c hcont hquery
    have hv : is_valid_container_reference t r = false := by
      simp [is_valid_container_reference, hcont, hquery]
    exact insert_node_invalid_first t r rs hv
  · intro t t2 rs e h
    exact insert_node_records_error_committed t t2 rs e h
  · intro t parent child hpnone hfreshp hcc hcp hfreshc hne
    have hvp : is_valid_container_reference t parent = true := by
      simp [is_valid_container_reference, hpnone]
    have h1 := insert_node_single_fresh t parent hvp hfreshp
    refine ⟨by rw [h1], ?_⟩
    rw [h1]
    simp only
    have hmem : nodeRowOf parent ∈
        (⟨t.view ++ [nodeRowOf parent], []⟩ : TableState NodeRow).view := by
      simp [TableState.view]
    have hcond : (sqlLike child.hard_file_path (nodeRowOf parent).hard_file_path &&
        sqlLike parent.name (nodeRowOf parent).name) = true := by
      simp only [nodeRowOf]
      rw [hcp]
      simp [sqlLike_refl]
    have hne2 : query_node_records ⟨t.view ++ [nodeRowOf parent], []⟩
        parent.name child.hard_file_path ≠ [] := by
      unfold query_node_records
      intro h0
      rw [List.map_eq_nil_iff] at h0
      have hm : nodeRowOf parent ∈ List.filter
          (fun row => sqlLike child.hard_file_path row.hard_file_path &&
            sqlLike parent.name row.name)
          ((⟨t.view ++ [nodeRowOf parent], []⟩ : TableState NodeRow).view) :=
        List.mem_filter.mpr ⟨hmem, hcond⟩
      rw [h0] at hm
      exact absurd hm (List.not_mem_nil _)
    have hv2 : is_valid_container_reference ⟨t.view ++ [nodeRowOf parent], []⟩ child = true := by
      simp only [is_valid_container_reference, hcc]
      rcases hq : query_node_records ⟨t.view ++ [nodeRowOf parent], []⟩
          parent.name child.hard_file_path with _ | ⟨a, l⟩
      · exact absurd hq hne2
      · rfl
    have hfresh2 : ∀ row ∈ (⟨t.view ++ [nodeRowOf parent], []⟩ : TableState NodeRow).view,
        ¬(row.hard_file_path = child.hard_file_path ∧ row.name = child.name) := by
      intro row hrow
      simp only [TableState.view, List.append_nil] at hrow
      rcases List.mem_append.mp hrow with hr1 | hr2
      · exact hfreshc row hr1
      · have : row = nodeRowOf parent := by simpa using hr2
        subst this
        intro hcc2
        exact hne (hcc2.2.symm)
    rw [insert_node_single_fresh ⟨t.view ++ [nodeRowOf parent], []⟩ child hv2 hfresh2]

/-- Witness for C3: a genuinely missing container raises; a parent then
a child in separate calls succeeds. -/
theorem C3_node_integrity_witness :
    insert_node_records TableState.empty [nodeOrphan] =
      (TableState.empty, Except.error DbError.integrityError) ∧
    (insert_node_records TableState.empty [nodeRecX]).2 = Except.ok true ∧
    (insert_node_records ((insert_node_records TableState.empty [nodeRecX]).1)
      [nodeChildOfX]).2 = Except.ok true := by
  refine ⟨?_, ?_, ?_⟩
  · exact C3_node_integrity_amended.1 TableState.empty nodeOrphan [] ("x".toList) rfl (by decide)
  · exact (C3_node_integrity_amended.2.2 TableState.empty nodeRecX nodeChildOfX rfl
      (by decide) rfl rfl (by decide) (by decide)).1
  · exact (C3_node_integrity_amended.2.2 TableState.empty nodeRecX nodeChildOfX rfl
      (by decide) rfl rfl (by decide) (by decide)).2

/-- Counterexample to C3 as stated: no node `(f, _)` exists, yet
inserting a record whose container is the string `_` succeeds (the
pre-check used `_` as a `LIKE` pattern and matched `(f, x)`), changing
the store instead of raising. -/
theorem C3_node_integrity_cex :
    (∀ rec ∈ ((insert_node_records TableState.empty [nodeRecX]).1).view,
      ¬(rec.hard_file_path = "f".toList ∧ rec.name = "_".toList)) ∧
    insert_node_records ((insert_node_records TableState.empty [nodeRecX]).1) [nodeRecWild] =
      (⟨[nodeRowOf nodeRecX, nodeRowOf nodeRecWild], []⟩, Except.ok true) := by decide

/-- C4: the reads are guarded by `try`, but `file_path.stat()` is not:
a file whose metadata reads fail and whose `stat` also fails makes
`populate_index` abort with the uncaught error, inserting nothing for
that file and never reaching the remaining files — contradicting the
documented per-file recovery. -/
theorem C4_stat_failure_aborts :
    populate_index FileIndexState.empty treeStatFail true =
      (FileIndexState.empty, some PopError.statError) := by decide

/-- C5: `c5bytes` passes the NUL probe (classified text) and is not
valid UTF-8, but because the line-count stream is opened with
`errors="ignore"` no `UnicodeDecodeError` can ever be raised: the
reclassification branch is dead, and the file is stored as text with
two lines rather than as binary with zero lines. -/
theorem C5_ignore_handler_keeps_text :
    isBinaryProbe c5bytes = false ∧
    utf8ValidStrict c5bytes = false ∧
    populate_index FileIndexState.empty treeC5 true =
      (⟨⟨[⟨"/d/f".toList, 4, false, 2, true⟩], []⟩,
        ⟨[⟨"/d/f".toList, "/d/f".toList⟩], []⟩⟩, none) := by decide

/-- C6 (amended): `query_hard_records("%")` returns every stored record;
for a substring free of the wildcard characters `%` and `_`,
`query_hard_records("%substr%")` returns exactly the records whose path
contains the substring up to ASCII case (SQLite `LIKE` is
case-insensitive on ASCII); a pattern matching nothing yields the empty
list, never an error. (The original claim over arbitrary substrings
fails: a substring containing `_` or `%` is interpreted as a pattern,
see the counterexample.) -/
theorem C6_query_semantics_amended :
    (∀ st : FileIndexState, query_hard_records st ['%'] = st.hard.view) ∧
    (∀ (st : FileIndexState) (sub : List Char), noWild sub = true →
      query_hard_records st ('%' :: (sub ++ ['%'])) =
        st.hard.view.filter (fun r => ciSub sub r.path)) ∧
    (∀ (st : FileIndexState) (pat : List Char),
      (∀ r ∈ st.hard.view, sqlLike pat r.path = false) →
      query_hard_records st pat = []) := by
  refine ⟨?_, ?_, ?_⟩
  · intro st
    unfold query_hard_records
    apply List.filter_eq_self.mpr
    intro r _
    exact sqlLike_all r.path
  · intro st sub hw
    unfold query_hard_records
    apply List.filter_congr
    intro r _
    exact sqlLike_contains sub r.path hw
  · intro st pat hall
    unfold query_hard_records
    apply List.filter_eq_nil_iff.mpr
    intro r hr
    simp [hall r hr]

/-- Witness for C6: the `%b%` query over the store holding `recAB`. -/
theorem C6_query_semantics_witness :
    query_hard_records stAB ('%' :: ("b".toList ++ ['%'])) =
      stAB.hard.view.filter (fun r => ciSub ("b".toList) r.path) :=
  C6_query_semantics_amended.2.1 stAB ("b".toList) (by decide)

/-- Counterexample to C6 as stated: the substring `_` occurs nowhere in
the stored path `ab`, yet `query_hard_records("%_%")` returns the
record, because `_` is a `LIKE` wildcard. -/
theorem C6_query_semantics_cex :
    query_hard_records stAB ("%_%".toList) = [recAB] ∧
    ciSub ("_".toList) ("ab".toList) = false := by decide

/-- C7 (amended): a batch hitting a duplicate primary key fails as a
whole and surfaces the failure (a `False` return on the file stores, a
raised integrity error on the node store), and the failing call itself
commits nothing; but rows of the batch executed before the duplicate
remain pending in the open transaction and can be committed by a later
successful operation on the same store (see the counterexample). -/
theorem C7_batch_failure_amended :
    (∀ (st : FileIndexState) (r : HardFileRecord) (rs : List HardFileRecord),
      (∃ x ∈ st.hard.view, x.path = r.path) →
      insert_hard_records st (r :: rs) = (false, st)) ∧
    (∀ (st : FileIndexState) (records : List HardFileRecord) (st2 : FileIndexState),
      insert_hard_records st records = (false, st2) →
      st2.hard.committed = st.hard.committed ∧ st2.soft = st.soft) ∧
    (∀ (st : FileIndexState) (r : SoftFileRecord) (rs : List SoftFileRecord),
      (∃ x ∈ st.soft.view, x.path = r.path) →
      insert_soft_records st (r :: rs) = (false, st)) ∧
    (∀ (st : FileIndexState) (records : List SoftFileRecord) (st2 : FileIndexState),
      insert_soft_records st records = (false, st2) →
      st2.soft.committed = st.soft.committed ∧ st2.hard = st.hard) ∧
    (∀ (t : TableState NodeRow) (r : NodeRecord) (rs : List NodeRecord),
      is_valid_container_reference t r = true →
      (∃ row ∈ t.view, row.hard_file_path = r.hard_file_path ∧ row.name = r.name) →
      insert_node_records t (r :: rs) = (t, Except.error DbError.integrityError)) ∧
    (∀ (t t2 : TableState NodeRow) (rs : List NodeRecord) (e : DbError),
      insert_node_records t rs = (t2, Except.error e) → t2.committed = t.committed) := by
  refine ⟨?_, ?_, ?_, ?_, ?_, ?_⟩
  · intro st r rs h
    exact insert_hard_dup_first st r rs h
  · intro st records st2 h
    rcases hgo : insertHardGo st.hard records with ⟨t2, b⟩
    unfold insert_hard_records at h
    rw [hgo] at h
    simp only [Prod.mk.injEq] at h
    obtain ⟨hb, hst2⟩ := h
    subst hb
    rw [← hst2]
    exact ⟨insertHardGo_false_committed records st.hard t2 hgo, rfl⟩
  · intro st r rs h
    exact insert_soft_dup_first st r rs h
  · intro st records st2 h
    rcases hgo : insertSoftGo st.soft records with ⟨t2, b⟩
    unfold insert_soft_records at h
    rw [hgo] at h
    simp only [Prod.mk.injEq] at h
    obtain ⟨hb, hst2⟩ := h
    subst hb
    rw [← hst2]
    exact ⟨insertSoftGo_false_committed records st.soft t2 hgo, rfl⟩
  · intro t r rs hv h
    exact insert_node_dup_first t r rs hv h
  · intro t t2 rs e h
    exact insert_node_records_error_committed t t2 rs e h

/-- Witness for C7: inserting a batch starting with the already-stored
`recAB` fails and leaves the store as it was. -/
theorem C7_batch_failure_witness :
    insert_hard_records stAB [recAB] = (false, stAB) :=
  C7_batch_failure_amended.1 stAB recAB [] ⟨recAB, by decide, rfl⟩

/-- Counterexample to C7 as stated: the batch `[hardRec2, hardRec1]`
fails on the duplicate `hardRec1`, the call returns `False` and commits
nothing — but `hardRec2` stays pending, and the next successful insert
on the same store commits it: a row of the failed batch ends up
committed. -/
theorem C7_batch_failure_cex :
    (insert_hard_records stC7 [hardRec2, hardRec1]).1 = false ∧
    hardRec2 ∉ ((insert_hard_records stC7 [hardRec2, hardRec1]).2).hard.committed ∧
    hardRec2 ∈ ((insert_hard_records
      ((insert_hard_records stC7 [hardRec2, hardRec1]).2) [hardRec3]).2).hard.committed := by decide

/-- C8 (amended): after a successful `wipe=true` population over
stat-able files with distinct walked paths, every walked path has a soft
record mapping it to its canonical path; in particular every canonical
path that is itself walked (a non-symlink entry) has a self-referencing
soft record. (The original claim — that *every* hard record has a
self-referencing soft record — fails when the canonical file lies
outside the walked tree, see the counterexample.) -/
theorem C8_soft_records_amended (st0 : FileIndexState) (dir : InputDir)
    (hd : dir.isDir = true)
    (hstat : ∀ f ∈ dir.files, f.statOk = true)
    (hpw : List.Pairwise (fun f g => f.absPath ≠ g.absPath) dir.files) :
    (populate_index st0 dir true).2 = none ∧
    ∀ f ∈ dir.files,
      softRecordOf f ∈ (populate_index st0 dir true).1.soft.view ∧
      (f.absPath = f.resolvedPath →
        (⟨f.resolvedPath, f.resolvedPath⟩ : SoftFileRecord) ∈
          (populate_index st0 dir true).1.soft.view) := by
  rw [populate_index_wipe, hd]
  simp only [Bool.not_true, Bool.false_eq_true, if_false]
  have h := populateLoop_soft dir.files FileIndexState.empty rfl rfl hstat hpw
    (by intro f hf s hs; exact absurd hs (List.not_mem_nil s))
  refine ⟨h.1, ?_⟩
  intro f hf
  have hmem : softRecordOf f ∈ (populateLoop FileIndexState.empty dir.files).1.soft.view := by
    rw [h.2]
    simp only [List.mem_append, List.mem_map]
    exact Or.inr ⟨f, hf, rfl⟩
  refine ⟨hmem, ?_⟩
  intro habs
  have heq : (⟨f.resolvedPath, f.resolvedPath⟩ : SoftFileRecord) = softRecordOf f := by
    simp [softRecordOf, habs]
  rw [heq]
  exact hmem

/-- Witness for C8: a file and a symlink to it inside the tree. -/
theorem C8_soft_records_witness :
    (populate_index FileIndexState.empty treeSymlinkIn true).2 = none ∧
    ∀ f ∈ treeSymlinkIn.files,
      softRecordOf f ∈ (populate_index FileIndexState.empty treeSymlinkIn true).1.soft.view ∧
      (f.absPath = f.resolvedPath →
        (⟨f.resolvedPath, f.resolvedPath⟩ : SoftFileRecord) ∈
          (populate_index FileIndexState.empty treeSymlinkIn true).1.soft.view) :=
  C8_soft_records_amended FileIndexState.empty treeSymlinkIn rfl (by decide) (by decide)

/-- Counterexample to C8 as stated: over `treeSymlinkOut` population
stores a hard record for the outside target `/out/t`, but no soft record
carries that path, so the canonical file has no self-referencing soft
record. -/
theorem C8_soft_records_cex :
    (populate_index FileIndexState.empty treeSymlinkOut true).2 = none ∧
    ((populate_index FileIndexState.empty treeSymlinkOut true).1.hard.view.map
      (fun h => h.path)) = ["/out/t".toList] ∧
    (∀ s ∈ (populate_index FileIndexState.empty treeSymlinkOut true).1.soft.view,
      s.path ≠ "/out/t".toList) := by decide

/-- C9: with `wipe=true` the populator first resets both stores, so its
result does not depend on the initial store at all; in particular
running it a second time from the first run's final state reproduces
exactly the first run's outcome. -/
theorem C9_populate_idempotent (st0 : FileIndexState) (dir : InputDir)
    (st1 : FileIndexState) (e1 : Option PopError)
    (h : populate_index st0 dir true = (st1, e1)) :
    populate_index st1 dir true = (st1, e1) := by
  have hconst : populate_index st1 dir true = populate_index st0 dir true := rfl
  rw [hconst, h]

/-- Witness for C9: re-running over `tree2` from the first final state. -/
theorem C9_populate_idempotent_witness :
    populate_index ((populate_index FileIndexState.empty tree2 true).1) tree2 true =
      ((populate_index FileIndexState.empty tree2 true).1,
       (populate_index FileIndexState.empty tree2 true).2) :=
  C9_populate_idempotent FileIndexState.empty tree2 _ _ rfl

/-- C10: with `wipe=true` and an invalid root, the schema reset and data
wipe have already happened when the invalid-input error is raised: the
call fails and both file stores are left empty. -/
theorem C10_wipe_before_validation (st0 : FileIndexState) (dir : InputDir)
    (hd : dir.isDir = false) :
    populate_index st0 dir true = (FileIndexState.empty, some PopError.invalidDir) := by
  rw [populate_index_wipe, hd]
  rfl

/-- Witness for C10: a store holding a record, wiped despite the error. -/
theorem C10_wipe_before_validation_witness :
    populate_index stAB dirMissing true = (FileIndexState.empty, some PopError.invalidDir) :=
  C10_wipe_before_validation stAB dirMissing rfl
